import Mathlib

/-!
Shallow embedding of the core of `simple_experiment_manager`
(`src/simple_experiment_manager/api/{experiment,label}.py`,
`io/handlers.py`, `schemas/{index,contexts,validators}.py`).

Modelling conventions:
- Experiment names, labels and relative paths are `String`s.
- Python `dict[str, T]` (insertion ordered, unique keys) is an association
  list `List (String × T)`; `dictInsert` updates an existing key in place and
  appends new keys at the end, matching `d[k] = v`; `dictErase` matches `del`.
- Timestamps (`datetime.now()`) are `Nat` values threaded in as a `now`
  argument to the operations that create metadata.
- The file system visible to the code is `FSState`: the index file content
  (`none` when the file does not exist, in which case `load_index` returns a
  fresh empty index, as in `ExperimentDataIO.load_index`), the set of
  existing experiment directories, and the stored per-experiment config file
  data (a plain field dictionary, as serialized by `save_config`).
- Pydantic validators run on load (`model_validate`) and on assignment
  (`validate_assignment=True`): `ensure_unique_list` on `global_labels` and
  on every experiment's `labels`. Loading the index therefore normalizes it
  (`normalizeIndex`); keys of a parsed JSON/YAML mapping are unique, which
  `dedupKeys` makes explicit.
- Response messages are abstracted to a constructor plus its interpolated
  payload (`Msg`), one constructor per distinct message produced by the
  source; exact Python string rendering (including `set` display order,
  which is unspecified) is not modelled.
- `add_labels_to_experiment` and `remove_global_labels` reference response
  classes that `schemas/responses.py` does not define, so they can never
  return a response: each call performs its state transition and then an
  `AttributeError` escapes (their `except` handlers re-raise it by naming
  the same missing class). Their result type is `LabelApiResult`, whose
  `attrError` case models the escaping exception.
-/

/-- Python `str`-keyed dict lookup (`d.get(k)` / `d[k]`): first entry with the key. -/
def dictLookup {α : Type} (k : String) : List (String × α) → Option α
  | [] => none
  | (k0, v) :: rest => if k0 = k then some v else dictLookup k rest

/-- Python dict assignment `d[k] = v`: replaces in place, or appends at the end. -/
def dictInsert {α : Type} (k : String) (v : α) : List (String × α) → List (String × α)
  | [] => [(k, v)]
  | (k0, v0) :: rest => if k0 = k then (k, v) :: rest else (k0, v0) :: dictInsert k v rest

/-- Python dict deletion `del d[k]` / `d.pop(k)`: removes the entry with the key. -/
def dictErase {α : Type} (k : String) : List (String × α) → List (String × α)
  | [] => []
  | (k0, v0) :: rest => if k0 = k then rest else (k0, v0) :: dictErase k rest

/-- Python `k in d`. -/
def dictContains {α : Type} (k : String) (d : List (String × α)) : Bool :=
  (dictLookup k d).isSome

/-- Keys of an association list, in order. -/
def dictKeys {α : Type} (d : List (String × α)) : List String :=
  d.map Prod.fst

/-- Helper for `ensure_unique_list`: `seen` accumulates keys already emitted. -/
def dedupAux (seen : List String) : List String → List String
  | [] => []
  | x :: xs => if x ∈ seen then dedupAux seen xs else x :: dedupAux (x :: seen) xs

/-- `schemas/validators.py` `ensure_unique_list`: `list(dict.fromkeys(items))` —
removes duplicates keeping the first occurrence of each element. -/
def ensure_unique_list (items : List String) : List String :=
  dedupAux [] items

/-- Helper making explicit that a parsed JSON/YAML mapping has unique keys
(first occurrence kept). -/
def dedupKeysAux {α : Type} (seen : List String) : List (String × α) → List (String × α)
  | [] => []
  | (k, v) :: rest =>
    if k ∈ seen then dedupKeysAux seen rest else (k, v) :: dedupKeysAux (k :: seen) rest

def dedupKeys {α : Type} (d : List (String × α)) : List (String × α) :=
  dedupKeysAux [] d

/-- `schemas/index.py` `ExperimentMetadata`. `created_at` is an abstract timestamp. -/
structure ExperimentMetadata where
  created_at : Nat
  labels : List String
  config_path : String
  deriving Repr, DecidableEq

/-- `schemas/index.py` `ExperimentIndex`. -/
structure ExperimentIndex where
  active_experiment : Option String := none
  global_labels : List String := []
  experiments : List (String × ExperimentMetadata) := []
  deriving Repr, DecidableEq

/-- Kind tag of a configuration document: a Pydantic `BaseModel` subclass
instance (schema-typed) or a `ConfigClass` instance (dynamic), the two cases
`_validate_config_type` in `api/experiment.py` distinguishes with `isinstance`. -/
inductive ConfigKind where
  | basemodel
  | dynamic
  deriving Repr, DecidableEq

/-- A configuration document: its kind tag, the name of its (possibly
dynamically created) model class, and its serialized field dictionary
(`model_dump`). -/
structure ConfigDoc where
  kind : ConfigKind
  schemaName : String
  fields : List (String × String)
  deriving Repr, DecidableEq

/-- Modelled from the spec (section 3 and 9, glossary): the schema identity of a
configuration document is a fingerprint of its field set — "hash of sorted
field names" — together with which of the two representations it uses. Used
only to state the spec's schema-matching rule; the source has no
corresponding function. -/
def schema_identity (c : ConfigDoc) : ConfigKind × Finset String :=
  (c.kind, (c.fields.map Prod.fst).toFinset)

/-- `schemas/contexts.py` `ExperimentContext`, restricted to the fields that
affect the modelled behavior. Paths are keyed by experiment name; the
base-directory, permission and encoding fields do not change any modelled
outcome. `get_config_file(name).relative_to(experiment_root)` is
`name ++ "/" ++ config_file_name`. -/
structure ExperimentContext where
  default_config : ConfigDoc
  config_file_name : String := "config.yaml"
  deriving Repr, DecidableEq

/-- The file system as the core sees it: index file content (`none` = absent),
existing experiment directories, stored config file data per experiment. -/
structure FSState where
  index_file : Option ExperimentIndex := none
  dirs : List String := []
  configs : List (String × List (String × String)) := []
  deriving Repr, DecidableEq

/-- Pydantic validator on `ExperimentMetadata.labels`. -/
def normalizeMetadata (m : ExperimentMetadata) : ExperimentMetadata :=
  { m with labels := ensure_unique_list m.labels }

/-- Validation performed by `ExperimentIndex.model_validate` on load:
`ensure_unique_list` on `global_labels` and every `labels` list; mapping keys
of the parsed file are unique. -/
def normalizeIndex (idx : ExperimentIndex) : ExperimentIndex :=
  { idx with
    global_labels := ensure_unique_list idx.global_labels,
    experiments := dedupKeys (idx.experiments.map (fun p => (p.1, normalizeMetadata p.2))) }

/-- `ExperimentDataIO.load_index`: fresh empty index when the file is absent,
otherwise the validated file content. -/
def load_index (fs : FSState) : ExperimentIndex :=
  match fs.index_file with
  | none => {}
  | some idx => normalizeIndex idx

/-- `ExperimentDataIO.save_index`: overwrites the index file. -/
def save_index (idx : ExperimentIndex) (fs : FSState) : FSState :=
  { fs with index_file := some idx }

/-- `ExperimentDataIO.save_config`: writes the dumped field dictionary; the
underlying writer creates the parent (experiment) directory. -/
def save_config (name : String) (config : ConfigDoc) (fs : FSState) : FSState :=
  { fs with
    dirs := if name ∈ fs.dirs then fs.dirs else fs.dirs ++ [name],
    configs := dictInsert name config.fields fs.configs }

/-- `ExperimentDataIO.load_config`: `none` models the `FileNotFoundError`
raised when the config file is absent; otherwise the stored data is rebuilt as
an instance of the context's default configuration's class (schema-typed) or
as a fresh `ConfigClass` (dynamic). -/
def load_config (name : String) (ctx : ExperimentContext) (fs : FSState) : Option ConfigDoc :=
  match dictLookup name fs.configs with
  | none => none
  | some data =>
    match ctx.default_config.kind with
    | .basemodel => some { kind := .basemodel, schemaName := ctx.default_config.schemaName, fields := data }
    | .dynamic => some { kind := .dynamic, schemaName := "DynamicConfig", fields := data }

/-- `ExperimentDataIO.delete_experiment_data`: recursively removes the
experiment directory (and so its config file) when it exists; no-op otherwise. -/
def delete_experiment_data (name : String) (fs : FSState) : FSState :=
  if name ∈ fs.dirs then
    { fs with dirs := fs.dirs.erase name, configs := dictErase name fs.configs }
  else fs

inductive RenameDirError where
  | srcMissing
  | destExists
  deriving Repr, DecidableEq

/-- `ExperimentDataIO.rename_experiment_dir`: `FileNotFoundError` when the
source directory is absent, `FileExistsError` when the destination exists,
otherwise renames the directory (moving the config file with it). -/
def rename_experiment_dir (oldName newName : String) (fs : FSState) :
    Except RenameDirError FSState :=
  if oldName ∉ fs.dirs then .error .srcMissing
  else if newName ∈ fs.dirs then .error .destExists
  else .ok { fs with
    dirs := fs.dirs.erase oldName ++ [newName],
    configs :=
      match dictLookup oldName fs.configs with
      | some d => dictInsert newName d (dictErase oldName fs.configs)
      | none => fs.configs }

/-- Response messages, abstracted to one constructor per distinct message the
source can actually produce, carrying the interpolated data.
`add_labels_to_experiment` and `remove_global_labels` have no constructors
here: the response classes they name do not exist (see `LabelApiResult`), so
none of their messages is ever built. -/
inductive Msg where
  | created (name : String)
  | alreadyExists (name : String)
  | doesNotExist (name : String)
  | nowActive (name : String)
  | deleted (name : String)
  | copied (src dst : String)
  | notFound (name : String)
  | configUpdated (name : String)
  | renamed (oldName newName : String)
  | srcDirNotFound (name : String)
  | destDirExists (name : String)
  | configRetrieved (name : String)
  | configFileNotFound (name : String)
  | typeMismatch (expected got : String)
  | unknownLabels (labels : List String)
  | labelsUpdated (name : String)
  | labelAdded (label : String)
  deriving Repr, DecidableEq

/-- `schemas/responses.py` `BaseResponse` (plus the `config` payload of
`ResponseGetExperimentConfig`). -/
structure Response where
  is_success : Bool
  message : Msg
  current_index : Option ExperimentIndex := none
  config : Option ConfigDoc := none
  deriving Repr, DecidableEq

/-- `api/experiment.py` `_validate_config_type`: `isinstance`-based kind check
of the supplied config against the context's default config. Returns `true`
when no `TypeError` would be raised. -/
def validate_config_type (config : ConfigDoc) (ctx : ExperimentContext) : Bool :=
  match ctx.default_config.kind with
  | .basemodel => config.kind == ConfigKind.basemodel
  | .dynamic => config.kind == ConfigKind.dynamic

/-- `api/experiment.py` `_create_experiment_core`: validates the config type,
fails with `FileExistsError` when the experiment directory already exists,
then writes the config file, inserts fresh metadata (labels de-duplicated by
the field validator, `created_at = now`, `config_path` derived from the
name), makes the experiment active and saves the index. -/
def create_experiment_core (experiment_name : String) (config : ConfigDoc)
    (labels : List String) (now : Nat) (ctx : ExperimentContext) (fs : FSState) :
    Except Msg (ExperimentIndex × FSState) :=
  if !(validate_config_type config ctx) then
    .error (.typeMismatch ctx.default_config.schemaName config.schemaName)
  else if experiment_name ∈ fs.dirs then
    .error (.alreadyExists experiment_name)
  else
    let index := load_index fs
    let fs1 := save_config experiment_name config fs
    let metadata : ExperimentMetadata :=
      { created_at := now,
        labels := ensure_unique_list labels,
        config_path := experiment_name ++ "/" ++ ctx.config_file_name }
    let index1 := { index with
        experiments := dictInsert experiment_name metadata index.experiments,
        active_experiment := some experiment_name }
    .ok (index1, save_index index1 fs1)

/-- `api/experiment.py` `create_experiment`: uses the context's default config
when the request supplies none, then runs `_create_experiment_core`; every
exception becomes a failure response with the file system untouched. -/
def create_experiment (experiment_name : String) (config : Option ConfigDoc)
    (now : Nat) (ctx : ExperimentContext) (fs : FSState) : Response × FSState :=
  let actual := config.getD ctx.default_config
  match create_experiment_core experiment_name actual [] now ctx fs with
  | .ok (idx, fs1) =>
    ({ is_success := true, message := .created experiment_name, current_index := some idx }, fs1)
  | .error m => ({ is_success := false, message := m }, fs)

/-- `api/experiment.py` `set_active_experiment`. -/
def set_active_experiment (experiment_name : String) (fs : FSState) : Response × FSState :=
  let index := load_index fs
  if !(dictContains experiment_name index.experiments) then
    ({ is_success := false, message := .doesNotExist experiment_name }, fs)
  else
    let index1 := { index with active_experiment := some experiment_name }
    ({ is_success := true, message := .nowActive experiment_name, current_index := some index1 },
     save_index index1 fs)

/-- `api/experiment.py` `delete_experiment`: validates existence in the index,
removes the directory (no-op when absent), removes the metadata entry, clears
`active_experiment` when it pointed at the deleted name, saves the index. -/
def delete_experiment (experiment_name : String) (fs : FSState) : Response × FSState :=
  let index := load_index fs
  if !(dictContains experiment_name index.experiments) then
    ({ is_success := false, message := .doesNotExist experiment_name }, fs)
  else
    let fs1 := delete_experiment_data experiment_name fs
    let index1 := { index with experiments := dictErase experiment_name index.experiments }
    let index2 :=
      if index1.active_experiment = some experiment_name then
        { index1 with active_experiment := none }
      else index1
    ({ is_success := true, message := .deleted experiment_name, current_index := some index2 },
     save_index index2 fs1)

/-- `api/experiment.py` `copy_experiment`: loads the source config (file-level
`FileNotFoundError` when absent), looks up the source labels (`KeyError` when
the source is not in the index), then runs `_create_experiment_core` for the
destination with the source's config and labels. -/
def copy_experiment (src_experiment_name dst_experiment_name : String)
    (now : Nat) (ctx : ExperimentContext) (fs : FSState) : Response × FSState :=
  let index := load_index fs
  match load_config src_experiment_name ctx fs with
  | none => ({ is_success := false, message := .configFileNotFound src_experiment_name }, fs)
  | some src_config =>
    match dictLookup src_experiment_name index.experiments with
    | none => ({ is_success := false, message := .notFound src_experiment_name }, fs)
    | some meta =>
      match create_experiment_core dst_experiment_name src_config meta.labels now ctx fs with
      | .ok (idx, fs1) =>
        ({ is_success := true, message := .copied src_experiment_name dst_experiment_name,
           current_index := some idx }, fs1)
      | .error m => ({ is_success := false, message := m }, fs)

/-- `api/experiment.py` `update_experiment_config`: validates the config type
first (a `TypeError` aborts with the file system untouched), then existence in
the index, then overwrites only the config file — the index file is not
rewritten. -/
def update_experiment_config (experiment_name : String) (config : ConfigDoc)
    (ctx : ExperimentContext) (fs : FSState) : Response × FSState :=
  let index := load_index fs
  if !(validate_config_type config ctx) then
    ({ is_success := false,
       message := .typeMismatch ctx.default_config.schemaName config.schemaName }, fs)
  else if !(dictContains experiment_name index.experiments) then
    ({ is_success := false, message := .notFound experiment_name }, fs)
  else
    ({ is_success := true, message := .configUpdated experiment_name, current_index := some index },
     save_config experiment_name config fs)

/-- `api/experiment.py` `rename_experiment`: validates that `old` is in the
index, renames the directory (which can fail), pops the old metadata, updates
its `config_path` from the new name, re-inserts it under the new key, updates
`active_experiment` when it pointed at `old`, saves the index. -/
def rename_experiment (old_experiment_name new_experiment_name : String)
    (ctx : ExperimentContext) (fs : FSState) : Response × FSState :=
  let index := load_index fs
  match dictLookup old_experiment_name index.experiments with
  | none => ({ is_success := false, message := .notFound old_experiment_name }, fs)
  | some meta =>
    match rename_experiment_dir old_experiment_name new_experiment_name fs with
    | .error .srcMissing =>
      ({ is_success := false, message := .srcDirNotFound old_experiment_name }, fs)
    | .error .destExists =>
      ({ is_success := false, message := .destDirExists new_experiment_name }, fs)
    | .ok fs1 =>
      let meta1 := { meta with
        config_path := new_experiment_name ++ "/" ++ ctx.config_file_name }
      let index1 := { index with
        experiments :=
          dictInsert new_experiment_name meta1
            (dictErase old_experiment_name index.experiments) }
      let index2 :=
        if index1.active_experiment = some old_experiment_name then
          { index1 with active_experiment := some new_experiment_name }
        else index1
      ({ is_success := true,
         message := .renamed old_experiment_name new_experiment_name,
         current_index := some index2 }, save_index index2 fs1)

/-- `api/experiment.py` `get_experiment_config`: loads the index and the
config file; the only failure is the `FileNotFoundError` from a missing
config file. Nothing is written. -/
def get_experiment_config (experiment_name : String) (ctx : ExperimentContext)
    (fs : FSState) : Response × FSState :=
  let index := load_index fs
  match load_config experiment_name ctx fs with
  | none => ({ is_success := false, message := .configFileNotFound experiment_name }, fs)
  | some config =>
    ({ is_success := true, message := .configRetrieved experiment_name,
       current_index := some index, config := some config }, fs)

/-- Outcome of calling `add_labels_to_experiment` or `remove_global_labels`:
`schemas/responses.py` defines no `ResponseAddLabelsToExperiment` and no
`ResponseRemoveGlobalLabels` (only the singular `ResponseAddGlobalLabel` /
`ResponseRemoveGlobalLabel`), and nothing aliases these names, so every
attempt in `api/label.py` to build one of these responses raises
`AttributeError` at the attribute lookup — before the message arguments are
even evaluated — and the `except` handler, which builds the same missing
class, raises again, so the exception escapes the function. No response
object (`is_success`/`message`) is ever returned; `attrError` models the
escaping exception. -/
inductive LabelApiResult where
  | response (r : Response)
  | attrError
  deriving Repr, DecidableEq

/-- `api/label.py` `add_labels_to_experiment`: validates existence, treats an
empty label list as a no-op, otherwise unions the new labels into the
experiment's labels and into `global_labels` (both via `ensure_unique_list`)
and saves the index. Every branch then tries to build the nonexistent
`ResponseAddLabelsToExperiment`, so every call ends in an escaping
`AttributeError` (`.attrError`); the state transition up to that point — in
particular the `save_index` of the success path — is as the source performs
it. -/
def add_labels_to_experiment (experiment_name : String) (labels : List String)
    (fs : FSState) : LabelApiResult × FSState :=
  let index := load_index fs
  match dictLookup experiment_name index.experiments with
  | none => (.attrError, fs)
  | some meta =>
    if labels.isEmpty then
      (.attrError, fs)
    else
      let meta1 := { meta with labels := ensure_unique_list (meta.labels ++ labels) }
      let index1 := { index with
        experiments := dictInsert experiment_name meta1 index.experiments,
        global_labels := ensure_unique_list (index.global_labels ++ labels) }
      (.attrError, save_index index1 fs)

/-- `api/label.py` `remove_global_labels`: when the requested labels are
disjoint from `global_labels` it takes the validation-failure branch,
otherwise it filters them out of `global_labels` and out of every
experiment's labels (assignments run the pydantic validators,
`ensure_unique_list`) and saves the index. Every branch then tries to build
the nonexistent `ResponseRemoveGlobalLabels`, so every call ends in an
escaping `AttributeError` (`.attrError`) instead of an `is_success`/`message`
response; in the non-disjoint case the filtered index has already been
persisted when the exception escapes. -/
def remove_global_labels (labels : List String) (fs : FSState) : LabelApiResult × FSState :=
  let index := load_index fs
  if ∀ l ∈ labels, l ∉ index.global_labels then
    (.attrError, fs)
  else
    let index1 := { index with
      global_labels :=
        ensure_unique_list (index.global_labels.filter (fun l => l ∉ labels)),
      experiments := index.experiments.map (fun p =>
        (p.1, { p.2 with labels := ensure_unique_list (p.2.labels.filter (fun l => l ∉ labels)) })) }
    (.attrError, save_index index1 fs)

/-- `api/label.py` `update_experiment_labels`: validates existence, then that
the requested labels are a subset of `global_labels` (failing with the set of
unknown labels otherwise), then replaces the experiment's labels with the
de-duplicated request and saves the index. -/
def update_experiment_labels (experiment_name : String) (labels : List String)
    (fs : FSState) : Response × FSState :=
  let index := load_index fs
  match dictLookup experiment_name index.experiments with
  | none => ({ is_success := false, message := .notFound experiment_name }, fs)
  | some meta =>
    if ∀ l ∈ labels, l ∈ index.global_labels then
      let meta1 := { meta with labels := ensure_unique_list labels }
      let index1 := { index with
        experiments := dictInsert experiment_name meta1 index.experiments }
      ({ is_success := true, message := .labelsUpdated experiment_name,
         current_index := some index1 }, save_index index1 fs)
    else
      ({ is_success := false,
         message := .unknownLabels
           (ensure_unique_list (labels.filter (fun l => l ∉ index.global_labels))) }, fs)

/-- Modelled from the spec: the operation table (section 4.3) lists
`add_global_label(label)` — "none (idempotent); adds to `global_labels` if
absent; no-op success if already present" — but no such function exists under
`src/` (`api/label.py` has no global-label add; labels enter `global_labels`
only through `add_labels_to_experiment`). Modelled faithfully from the spec's
words over the same storage layer. -/
def add_global_label (label : String) (fs : FSState) : Response × FSState :=
  let index := load_index fs
  if label ∈ index.global_labels then
    ({ is_success := true, message := .labelAdded label, current_index := some index }, fs)
  else
    let index1 := { index with global_labels := index.global_labels ++ [label] }
    ({ is_success := true, message := .labelAdded label, current_index := some index1 },
     save_index index1 fs)

/-- One constructor per core operation of the API layer, carrying its request
payload (and the creation timestamp where the operation stamps metadata). -/
inductive Op where
  | create (experiment_name : String) (config : Option ConfigDoc) (now : Nat)
  | setActive (experiment_name : String)
  | delete (experiment_name : String)
  | copy (src dst : String) (now : Nat)
  | updateConfig (experiment_name : String) (config : ConfigDoc)
  | rename (oldName newName : String)
  | getConfig (experiment_name : String)
  | addLabels (experiment_name : String) (labels : List String)
  | removeGlobalLabels (labels : List String)
  | updateLabels (experiment_name : String) (labels : List String)
  deriving Repr

/-- State transition of one core operation (the response is discarded). -/
def applyOp (ctx : ExperimentContext) (fs : FSState) : Op → FSState
  | .create n c now => (create_experiment n c now ctx fs).2
  | .setActive n => (set_active_experiment n fs).2
  | .delete n => (delete_experiment n fs).2
  | .copy src dst now => (copy_experiment src dst now ctx fs).2
  | .updateConfig n c => (update_experiment_config n c ctx fs).2
  | .rename o n => (rename_experiment o n ctx fs).2
  | .getConfig n => (get_experiment_config n ctx fs).2
  | .addLabels n ls => (add_labels_to_experiment n ls fs).2
  | .removeGlobalLabels ls => (remove_global_labels ls fs).2
  | .updateLabels n ls => (update_experiment_labels n ls fs).2

/-- Runs a sequence of core operations. -/
def runOps (ctx : ExperimentContext) (fs : FSState) : List Op → FSState
  | [] => fs
  | op :: rest => runOps ctx (applyOp ctx fs op) rest

/-- Referential integrity of an index value: every label of every experiment
is a member of `global_labels`. -/
def labelsSubset (idx : ExperimentIndex) : Prop :=
  ∀ p ∈ idx.experiments, ∀ l ∈ p.2.labels, l ∈ idx.global_labels

/-- Referential integrity of the persisted state, read back the way every
operation reads it. -/
def RefIntegrity (fs : FSState) : Prop :=
  labelsSubset (load_index fs)

/-- Index-to-disk consistency: every experiment recorded in the index has its
directory on disk. Maintained by the operations themselves (create and copy
make the directory before recording the experiment; delete and rename keep
the two in step). -/
def DirSync (fs : FSState) : Prop :=
  ∀ p ∈ (load_index fs).experiments, p.1 ∈ fs.dirs

/-- Disk-to-index consistency: every stored config file belongs to an
experiment recorded in the index (no orphaned files). -/
def ConfigSync (fs : FSState) : Prop :=
  ∀ p ∈ fs.configs, dictContains p.1 (load_index fs).experiments = true

instance (fs : FSState) : Decidable (DirSync fs) :=
  decidable_of_iff (∀ p ∈ (load_index fs).experiments, p.1 ∈ fs.dirs) Iff.rfl

instance (fs : FSState) : Decidable (ConfigSync fs) :=
  decidable_of_iff (∀ p ∈ fs.configs, dictContains p.1 (load_index fs).experiments = true) Iff.rfl

/-- The combined disk/index consistency invariant the operations maintain:
every indexed experiment has its directory, every stored config file belongs
to an indexed experiment, and the stored config files have one entry per
experiment name. -/
def Consistent (fs : FSState) : Prop :=
  DirSync fs ∧ ConfigSync fs ∧ (dictKeys fs.configs).Nodup


/-! Supporting lemmas about the de-duplication helpers. -/

theorem mem_dedupAux {a : String} :
    ∀ (l seen : List String), a ∈ dedupAux seen l ↔ (a ∈ l ∧ a ∉ seen) := by
  intro l
  induction l with
  | nil => intro seen; simp [dedupAux]
  | cons x xs ih =>
    intro seen
    by_cases hx : x ∈ seen
    · rw [dedupAux, if_pos hx, ih]
      constructor
      · rintro ⟨h1, h2⟩
        exact ⟨List.mem_cons_of_mem _ h1, h2⟩
      · rintro ⟨h1, h2⟩
        rcases List.mem_cons.mp h1 with rfl | h1
        · exact absurd hx h2
        · exact ⟨h1, h2⟩
    · rw [dedupAux, if_neg hx]
      constructor
      · intro h
        rcases List.mem_cons.mp h with rfl | h
        · exact ⟨List.mem_cons_self _ _, hx⟩
        · rcases (ih (x :: seen)).mp h with ⟨h1, h2⟩
          exact ⟨List.mem_cons_of_mem _ h1,
            fun hs => h2 (List.mem_cons_of_mem _ hs)⟩
      · rintro ⟨h1, h2⟩
        rcases List.mem_cons.mp h1 with rfl | h1
        · exact List.mem_cons_self _ _
        · by_cases hax : a = x
          · exact hax ▸ List.mem_cons_self _ _
          · refine List.mem_cons_of_mem _ ((ih (x :: seen)).mpr ⟨h1, fun hs => ?_⟩)
            rcases List.mem_cons.mp hs with h | h
            · exact hax h
            · exact h2 h

theorem mem_ensure_unique_list {a : String} {l : List String} :
    a ∈ ensure_unique_list l ↔ a ∈ l := by
  rw [ensure_unique_list, mem_dedupAux]
  simp

theorem nodup_dedupAux : ∀ (l seen : List String), (dedupAux seen l).Nodup := by
  intro l
  induction l with
  | nil => intro seen; simp [dedupAux]
  | cons x xs ih =>
    intro seen
    by_cases hx : x ∈ seen
    · rw [dedupAux, if_pos hx]; exact ih seen
    · rw [dedupAux, if_neg hx]
      refine List.nodup_cons.mpr ⟨fun h => ?_, ih (x :: seen)⟩
      exact ((mem_dedupAux xs (x :: seen)).mp h).2 (List.mem_cons_self _ _)

theorem nodup_ensure_unique_list (l : List String) : (ensure_unique_list l).Nodup :=
  nodup_dedupAux l []

theorem dedupAux_eq_self :
    ∀ (l seen : List String), l.Nodup → (∀ a ∈ l, a ∉ seen) → dedupAux seen l = l := by
  intro l
  induction l with
  | nil => intro seen _ _; rfl
  | cons x xs ih =>
    intro seen hnd hdis
    have hx : x ∉ seen := hdis x (List.mem_cons_self _ _)
    rw [dedupAux, if_neg hx]
    have hnd' := List.nodup_cons.mp hnd
    refine congrArg (x :: ·) (ih (x :: seen) hnd'.2 fun a ha hs => ?_)
    rcases List.mem_cons.mp hs with rfl | hs
    · exact hnd'.1 ha
    · exact hdis a (List.mem_cons_of_mem _ ha) hs

theorem ensure_unique_list_eq_self {l : List String} (h : l.Nodup) :
    ensure_unique_list l = l :=
  dedupAux_eq_self l [] h (by simp)

/-! Supporting lemmas about the dictionary helpers. -/

theorem dictLookup_dictInsert_self {α : Type} (k : String) (v : α) :
    ∀ d, dictLookup k (dictInsert k v d) = some v := by
  intro d
  induction d with
  | nil => simp [dictInsert, dictLookup]
  | cons p rest ih =>
    obtain ⟨k0, v0⟩ := p
    by_cases h : k0 = k
    · rw [dictInsert, if_pos h, dictLookup, if_pos rfl]
    · rw [dictInsert, if_neg h, dictLookup, if_neg h, ih]

theorem dictLookup_dictInsert_ne {α : Type} {k k0 : String} (v : α) (h : k ≠ k0) :
    ∀ d, dictLookup k0 (dictInsert k v d) = dictLookup k0 d := by
  intro d
  induction d with
  | nil => simp [dictInsert, dictLookup, h]
  | cons p rest ih =>
    obtain ⟨k1, v1⟩ := p
    by_cases h1 : k1 = k
    · subst h1
      rw [dictInsert, if_pos rfl, dictLookup, if_neg h, dictLookup, if_neg h]
    · rw [dictInsert, if_neg h1, dictLookup, dictLookup]
      by_cases h2 : k1 = k0
      · rw [if_pos h2, if_pos h2]
      · rw [if_neg h2, if_neg h2, ih]

theorem dictLookup_dictErase_ne {α : Type} {k k0 : String} (h : k ≠ k0) :
    ∀ d : List (String × α), dictLookup k0 (dictErase k d) = dictLookup k0 d := by
  intro d
  induction d with
  | nil => rfl
  | cons p rest ih =>
    obtain ⟨k1, v1⟩ := p
    by_cases h1 : k1 = k
    · subst h1
      rw [dictErase, if_pos rfl, dictLookup, if_neg h]
    · rw [dictErase, if_neg h1, dictLookup, dictLookup]
      by_cases h2 : k1 = k0
      · rw [if_pos h2, if_pos h2]
      · rw [if_neg h2, if_neg h2, ih]

theorem dictLookup_eq_none_of_not_mem_keys {α : Type} {k : String} :
    ∀ {d : List (String × α)}, k ∉ dictKeys d → dictLookup k d = none := by
  intro d
  induction d with
  | nil => intro _; rfl
  | cons p rest ih =>
    obtain ⟨k1, v1⟩ := p
    intro h
    rw [dictKeys, List.map_cons] at h
    rw [dictLookup, if_neg (fun hh => h (by rw [← hh]; exact List.mem_cons_self _ _))]
    exact ih fun hh => h (List.mem_cons_of_mem _ hh)

theorem dictLookup_dictErase_self {α : Type} {k : String} :
    ∀ {d : List (String × α)}, (dictKeys d).Nodup → dictLookup k (dictErase k d) = none := by
  intro d
  induction d with
  | nil => intro _; rfl
  | cons p rest ih =>
    obtain ⟨k1, v1⟩ := p
    intro hnd
    have hnd' := List.nodup_cons.mp hnd
    by_cases h1 : k1 = k
    · subst h1
      rw [dictErase, if_pos rfl]
      exact dictLookup_eq_none_of_not_mem_keys hnd'.1
    · rw [dictErase, if_neg h1, dictLookup, if_neg h1]
      exact ih hnd'.2

theorem mem_of_dictLookup_eq_some {α : Type} {k : String} {v : α} :
    ∀ {d : List (String × α)}, dictLookup k d = some v → (k, v) ∈ d := by
  intro d
  induction d with
  | nil => intro h; exact absurd h (by simp [dictLookup])
  | cons p rest ih =>
    obtain ⟨k1, v1⟩ := p
    intro h
    rw [dictLookup] at h
    by_cases h1 : k1 = k
    · rw [if_pos h1] at h
      subst h1
      rw [Option.some.injEq] at h
      subst h
      exact List.mem_cons_self _ _
    · rw [if_neg h1] at h
      exact List.mem_cons_of_mem _ (ih h)

theorem mem_dictInsert_elim {α : Type} {p : String × α} {k : String} {v : α} :
    ∀ {d : List (String × α)}, p ∈ dictInsert k v d → p = (k, v) ∨ p ∈ d := by
  intro d
  induction d with
  | nil => intro h; simp [dictInsert] at h; exact Or.inl h
  | cons q rest ih =>
    obtain ⟨k1, v1⟩ := q
    intro h
    by_cases h1 : k1 = k
    · rw [dictInsert, if_pos h1] at h
      rcases List.mem_cons.mp h with rfl | h
      · exact Or.inl rfl
      · exact Or.inr (List.mem_cons_of_mem _ h)
    · rw [dictInsert, if_neg h1] at h
      rcases List.mem_cons.mp h with rfl | h
      · exact Or.inr (List.mem_cons_self _ _)
      · rcases ih h with h | h
        · exact Or.inl h
        · exact Or.inr (List.mem_cons_of_mem _ h)

theorem mem_dictErase_sub {α : Type} {p : String × α} {k : String} :
    ∀ {d : List (String × α)}, p ∈ dictErase k d → p ∈ d := by
  intro d
  induction d with
  | nil => intro h; exact h
  | cons q rest ih =>
    obtain ⟨k1, v1⟩ := q
    intro h
    by_cases h1 : k1 = k
    · rw [dictErase, if_pos h1] at h
      exact List.mem_cons_of_mem _ h
    · rw [dictErase, if_neg h1] at h
      rcases List.mem_cons.mp h with rfl | h
      · exact List.mem_cons_self _ _
      · exact List.mem_cons_of_mem _ (ih h)

theorem mem_dedupKeysAux_sub {α : Type} {p : String × α} :
    ∀ (d : List (String × α)) (seen : List String), p ∈ dedupKeysAux seen d → p ∈ d := by
  intro d
  induction d with
  | nil => intro seen h; exact h
  | cons q rest ih =>
    obtain ⟨k1, v1⟩ := q
    intro seen h
    by_cases h1 : k1 ∈ seen
    · rw [dedupKeysAux, if_pos h1] at h
      exact List.mem_cons_of_mem _ (ih seen h)
    · rw [dedupKeysAux, if_neg h1] at h
      rcases List.mem_cons.mp h with rfl | h
      · exact List.mem_cons_self _ _
      · exact List.mem_cons_of_mem _ (ih (k1 :: seen) h)

theorem mem_keys_dedupKeysAux {α : Type} {k : String} :
    ∀ (d : List (String × α)) (seen : List String),
      k ∈ dictKeys (dedupKeysAux seen d) → k ∉ seen := by
  intro d
  induction d with
  | nil => intro seen h; exact absurd h (by simp [dedupKeysAux, dictKeys])
  | cons q rest ih =>
    obtain ⟨k1, v1⟩ := q
    intro seen h
    by_cases h1 : k1 ∈ seen
    · rw [dedupKeysAux, if_pos h1] at h
      exact ih seen h
    · rw [dedupKeysAux, if_neg h1] at h
      rw [dictKeys, List.map_cons] at h
      rcases List.mem_cons.mp h with rfl | h
      · exact h1
      · exact fun hs => ih (k1 :: seen) h (List.mem_cons_of_mem _ hs)

theorem nodup_keys_dedupKeysAux {α : Type} :
    ∀ (d : List (String × α)) (seen : List String), (dictKeys (dedupKeysAux seen d)).Nodup := by
  intro d
  induction d with
  | nil => intro seen; simp [dedupKeysAux, dictKeys]
  | cons q rest ih =>
    obtain ⟨k1, v1⟩ := q
    intro seen
    by_cases h1 : k1 ∈ seen
    · rw [dedupKeysAux, if_pos h1]; exact ih seen
    · rw [dedupKeysAux, if_neg h1, dictKeys, List.map_cons]
      refine List.nodup_cons.mpr ⟨fun h => ?_, ih (k1 :: seen)⟩
      exact mem_keys_dedupKeysAux rest (k1 :: seen) h (List.mem_cons_self _ _)

theorem nodup_keys_load_index (fs : FSState) :
    (dictKeys (load_index fs).experiments).Nodup := by
  rw [load_index]
  match fs.index_file with
  | none => simp [dictKeys]
  | some idx => exact nodup_keys_dedupKeysAux _ []

theorem nodup_global_labels_load_index (fs : FSState) :
    ((load_index fs).global_labels).Nodup := by
  rw [load_index]
  match fs.index_file with
  | none => simp
  | some idx => exact nodup_ensure_unique_list _

/-! Referential integrity (claim C1): the machinery below shows the invariant
is preserved by every core operation. -/

theorem labelsSubset_normalizeIndex {idx : ExperimentIndex} (h : labelsSubset idx) :
    labelsSubset (normalizeIndex idx) := by
  intro p hp l hl
  rw [normalizeIndex] at hp
  have hp1 := mem_dedupKeysAux_sub _ [] hp
  rcases List.mem_map.mp hp1 with ⟨q, hq, rfl⟩
  rw [normalizeMetadata] at hl
  simp only at hl
  rw [normalizeIndex]
  simp only
  exact mem_ensure_unique_list.mpr (h q hq l (mem_ensure_unique_list.mp hl))

theorem refIntegrity_save_index {idx : ExperimentIndex} (h : labelsSubset idx)
    (fs1 : FSState) : RefIntegrity (save_index idx fs1) := by
  rw [RefIntegrity]
  have : load_index (save_index idx fs1) = normalizeIndex idx := rfl
  rw [this]
  exact labelsSubset_normalizeIndex h

theorem load_index_save_config (n : String) (c : ConfigDoc) (fs : FSState) :
    load_index (save_config n c fs) = load_index fs := rfl

theorem load_index_delete_data (n : String) (fs : FSState) :
    load_index (delete_experiment_data n fs) = load_index fs := by
  rw [delete_experiment_data]
  split <;> rfl

theorem ri_create_core {fs : FSState} {n : String} {c : ConfigDoc} {labels : List String}
    {now : Nat} {ctx : ExperimentContext}
    (hfs : RefIntegrity fs) (hlab : ∀ l ∈ labels, l ∈ (load_index fs).global_labels) :
    ∀ r, create_experiment_core n c labels now ctx fs = .ok r → RefIntegrity r.2 := by
  intro r hr
  rw [create_experiment_core] at hr
  split at hr
  · exact absurd hr (by simp)
  · split at hr
    · exact absurd hr (by simp)
    · rw [Except.ok.injEq] at hr
      subst hr
      refine refIntegrity_save_index (fun p hp l hl => ?_) _
      simp only at hp hl ⊢
      rcases mem_dictInsert_elim hp with rfl | hp
      · simp only at hl
        exact hlab l (mem_ensure_unique_list.mp hl)
      · exact hfs p hp l hl

theorem ri_create {fs : FSState} {n : String} {c : Option ConfigDoc} {now : Nat}
    {ctx : ExperimentContext} (hfs : RefIntegrity fs) :
    RefIntegrity (create_experiment n c now ctx fs).2 := by
  rw [create_experiment]
  split
  · rename_i r hr
    exact ri_create_core hfs (by simp) _ hr
  · exact hfs

theorem ri_set_active {fs : FSState} {n : String} (hfs : RefIntegrity fs) :
    RefIntegrity (set_active_experiment n fs).2 := by
  rw [set_active_experiment]
  simp only
  split
  · exact hfs
  · refine refIntegrity_save_index (fun p hp l hl => ?_) _
    exact hfs p hp l hl

theorem ri_delete {fs : FSState} {n : String} (hfs : RefIntegrity fs) :
    RefIntegrity (delete_experiment n fs).2 := by
  rw [delete_experiment]
  simp only
  split
  · exact hfs
  · split
    · refine refIntegrity_save_index (fun p hp l hl => ?_) _
      simp only at hp ⊢
      exact hfs p (mem_dictErase_sub hp) l hl
    · refine refIntegrity_save_index (fun p hp l hl => ?_) _
      simp only at hp ⊢
      exact hfs p (mem_dictErase_sub hp) l hl

theorem ri_copy {fs : FSState} {src dst : String} {now : Nat} {ctx : ExperimentContext}
    (hfs : RefIntegrity fs) : RefIntegrity (copy_experiment src dst now ctx fs).2 := by
  rw [copy_experiment]
  split
  · exact hfs
  · split
    · exact hfs
    · rename_i meta hmeta
      split
      · rename_i r hr
        refine ri_create_core hfs (fun l hl => ?_) _ hr
        exact hfs _ (mem_of_dictLookup_eq_some hmeta) l hl
      · exact hfs

theorem ri_update_config {fs : FSState} {n : String} {c : ConfigDoc}
    {ctx : ExperimentContext} (hfs : RefIntegrity fs) :
    RefIntegrity (update_experiment_config n c ctx fs).2 := by
  rw [update_experiment_config]
  split
  · exact hfs
  · split
    · exact hfs
    · rw [RefIntegrity, load_index_save_config]
      exact hfs

theorem ri_rename {fs : FSState} {o n : String} {ctx : ExperimentContext}
    (hfs : RefIntegrity fs) : RefIntegrity (rename_experiment o n ctx fs).2 := by
  rw [rename_experiment]
  simp only
  split
  · exact hfs
  · rename_i meta hmeta
    split
    · exact hfs
    · exact hfs
    · refine refIntegrity_save_index ?_ _
      have base : ∀ p ∈ dictInsert n { meta with
          config_path := n ++ "/" ++ ctx.config_file_name }
            (dictErase o (load_index fs).experiments),
          ∀ l ∈ p.2.labels, l ∈ (load_index fs).global_labels := by
        intro p hp l hl
        rcases mem_dictInsert_elim hp with rfl | hp
        · simp only at hl
          exact hfs _ (mem_of_dictLookup_eq_some hmeta) l hl
        · exact hfs p (mem_dictErase_sub hp) l hl
      split
      · intro p hp l hl
        exact base p hp l hl
      · intro p hp l hl
        exact base p hp l hl

theorem ri_get_config {fs : FSState} {n : String} {ctx : ExperimentContext}
    (hfs : RefIntegrity fs) : RefIntegrity (get_experiment_config n ctx fs).2 := by
  rw [get_experiment_config]
  split
  · exact hfs
  · exact hfs

theorem ri_add_labels {fs : FSState} {n : String} {labels : List String}
    (hfs : RefIntegrity fs) : RefIntegrity (add_labels_to_experiment n labels fs).2 := by
  rw [add_labels_to_experiment]
  simp only
  split
  · exact hfs
  · rename_i meta hmeta
    split
    · exact hfs
    · refine refIntegrity_save_index (fun p hp l hl => ?_) _
      simp only at hp hl ⊢
      rcases mem_dictInsert_elim hp with rfl | hp
      · simp only at hl
        rcases List.mem_append.mp (mem_ensure_unique_list.mp hl) with h | h
        · exact mem_ensure_unique_list.mpr (List.mem_append.mpr
            (Or.inl (hfs _ (mem_of_dictLookup_eq_some hmeta) l h)))
        · exact mem_ensure_unique_list.mpr (List.mem_append.mpr (Or.inr h))
      · exact mem_ensure_unique_list.mpr (List.mem_append.mpr
          (Or.inl (hfs p hp l hl)))

theorem ri_remove_global {fs : FSState} {labels : List String}
    (hfs : RefIntegrity fs) : RefIntegrity (remove_global_labels labels fs).2 := by
  rw [remove_global_labels]
  simp only
  split
  · exact hfs
  · refine refIntegrity_save_index (fun p hp l hl => ?_) _
    simp only at hp hl ⊢
    rcases List.mem_map.mp hp with ⟨q, hq, rfl⟩
    simp only at hl
    have h1 := mem_ensure_unique_list.mp hl
    have h2 := List.mem_filter.mp h1
    refine mem_ensure_unique_list.mpr (List.mem_filter.mpr ⟨hfs q hq l h2.1, h2.2⟩)

theorem ri_update_labels {fs : FSState} {n : String} {labels : List String}
    (hfs : RefIntegrity fs) : RefIntegrity (update_experiment_labels n labels fs).2 := by
  rw [update_experiment_labels]
  simp only
  split
  · exact hfs
  · split
    · rename_i meta hmeta hall
      refine refIntegrity_save_index (fun p hp l hl => ?_) _
      simp only at hp hl ⊢
      rcases mem_dictInsert_elim hp with rfl | hp
      · simp only at hl
        exact hall l (mem_ensure_unique_list.mp hl)
      · exact hfs p hp l hl
    · exact hfs

theorem ri_applyOp {ctx : ExperimentContext} {fs : FSState} (hfs : RefIntegrity fs) :
    ∀ op, RefIntegrity (applyOp ctx fs op)
  | .create .. => ri_create hfs
  | .setActive _ => ri_set_active hfs
  | .delete _ => ri_delete hfs
  | .copy .. => ri_copy hfs
  | .updateConfig .. => ri_update_config hfs
  | .rename .. => ri_rename hfs
  | .getConfig _ => ri_get_config hfs
  | .addLabels .. => ri_add_labels hfs
  | .removeGlobalLabels _ => ri_remove_global hfs
  | .updateLabels .. => ri_update_labels hfs

theorem ri_runOps {ctx : ExperimentContext} :
    ∀ (ops : List Op) (fs : FSState), RefIntegrity fs → RefIntegrity (runOps ctx fs ops)
  | [], _, hfs => hfs
  | op :: rest, _, hfs => ri_runOps rest _ (ri_applyOp hfs op)

/-- Claim C1: starting from an empty index, after any sequence of core
operations every label appearing in any experiment's labels list is a member
of the index's `global_labels` list (`RefIntegrity` of the persisted state;
since every prefix of a sequence is itself a sequence, the invariant holds
after each operation). -/
theorem referential_integrity_invariant (ctx : ExperimentContext)
    (dirs : List String) (configs : List (String × List (String × String)))
    (ops : List Op) :
    RefIntegrity (runOps ctx { index_file := none, dirs := dirs, configs := configs } ops) := by
  refine ri_runOps ops _ ?_
  intro p hp l _
  exact absurd hp (by simp [load_index])

theorem add_global_label_eq_of_mem {fs : FSState} {L : String}
    (hL : L ∈ (load_index fs).global_labels) :
    add_global_label L fs =
      ({ is_success := true, message := .labelAdded L,
         current_index := some (load_index fs) }, fs) := by
  simp [add_global_label, hL]

theorem add_global_label_eq_of_not_mem {fs : FSState} {L : String}
    (hL : L ∉ (load_index fs).global_labels) :
    add_global_label L fs =
      ({ is_success := true, message := .labelAdded L,
         current_index := some { load_index fs with
           global_labels := (load_index fs).global_labels ++ [L] } },
       save_index { load_index fs with
           global_labels := (load_index fs).global_labels ++ [L] } fs) := by
  simp [add_global_label, hL]

/-- Claim C4: `add_global_label` (modelled from the spec, which lists it in
the operation table although no such function exists under `src/`) is
idempotent: calling it twice with the same label from any state succeeds both
times, the second call changes nothing, and the resulting `global_labels`
contains the label exactly once. -/
theorem add_global_label_idempotent (fs : FSState) (L : String) :
    (add_global_label L fs).1.is_success = true ∧
    (add_global_label L (add_global_label L fs).2).1.is_success = true ∧
    (add_global_label L (add_global_label L fs).2).2 = (add_global_label L fs).2 ∧
    (load_index (add_global_label L (add_global_label L fs).2).2).global_labels.count L = 1 := by
  have hnd := nodup_global_labels_load_index fs
  by_cases hL : L ∈ (load_index fs).global_labels
  · simp only [add_global_label_eq_of_mem hL]
    exact ⟨trivial, trivial, trivial, List.count_eq_one_of_mem hnd hL⟩
  · have hnd1 : ((load_index fs).global_labels ++ [L]).Nodup := by
      rw [List.nodup_append]
      exact ⟨hnd, List.nodup_singleton L, by
        intro a ha hb
        rw [List.mem_singleton] at hb
        exact hL (hb ▸ ha)⟩
    have hg1 : (load_index (save_index { load_index fs with
        global_labels := (load_index fs).global_labels ++ [L] } fs)).global_labels =
        (load_index fs).global_labels ++ [L] := by
      show ensure_unique_list ((load_index fs).global_labels ++ [L]) =
        (load_index fs).global_labels ++ [L]
      exact ensure_unique_list_eq_self hnd1
    have hmem : L ∈ (load_index (save_index { load_index fs with
        global_labels := (load_index fs).global_labels ++ [L] } fs)).global_labels := by
      rw [hg1]
      simp
    simp only [add_global_label_eq_of_not_mem hL]
    simp only [add_global_label_eq_of_mem hmem]
    refine ⟨trivial, trivial, trivial, ?_⟩
    rw [hg1, List.count_append]
    rw [List.count_eq_zero.mpr hL]
    simp

theorem delete_experiment_eq_active {fs : FSState} {name : String} {meta : ExperimentMetadata}
    (hname : dictLookup name (load_index fs).experiments = some meta)
    (hact : (load_index fs).active_experiment = some name) :
    delete_experiment name fs =
      ({ is_success := true, message := .deleted name,
         current_index := some { load_index fs with
           active_experiment := none,
           experiments := dictErase name (load_index fs).experiments } },
       save_index { load_index fs with
           active_experiment := none,
           experiments := dictErase name (load_index fs).experiments }
         (delete_experiment_data name fs)) := by
  simp [delete_experiment, dictContains, hname, hact]

theorem delete_experiment_eq_inactive {fs : FSState} {name : String} {meta : ExperimentMetadata}
    (hname : dictLookup name (load_index fs).experiments = some meta)
    (hact : ¬ (load_index fs).active_experiment = some name) :
    delete_experiment name fs =
      ({ is_success := true, message := .deleted name,
         current_index := some { load_index fs with
           experiments := dictErase name (load_index fs).experiments } },
       save_index { load_index fs with
           experiments := dictErase name (load_index fs).experiments }
         (delete_experiment_data name fs)) := by
  simp [delete_experiment, dictContains, hname, hact]

/-- Claim C8: for every index in which `name` is present, `delete_experiment`
succeeds, removes the entry from the experiments map, clears
`active_experiment` exactly when it pointed at `name`, and leaves
`global_labels` and every other experiment's metadata unchanged. -/
theorem delete_resets_active {fs : FSState} {name : String} {meta : ExperimentMetadata}
    (hname : dictLookup name (load_index fs).experiments = some meta) :
    (delete_experiment name fs).1.is_success = true ∧
    ∃ idx, (delete_experiment name fs).2.index_file = some idx ∧
      dictLookup name idx.experiments = none ∧
      idx.active_experiment = (if (load_index fs).active_experiment = some name then none
        else (load_index fs).active_experiment) ∧
      idx.global_labels = (load_index fs).global_labels ∧
      (∀ m, m ≠ name → dictLookup m idx.experiments = dictLookup m (load_index fs).experiments) := by
  by_cases hact : (load_index fs).active_experiment = some name
  · rw [delete_experiment_eq_active hname hact]
    exact ⟨rfl, _, rfl, dictLookup_dictErase_self (nodup_keys_load_index fs),
      by rw [if_pos hact], rfl, fun m hm => dictLookup_dictErase_ne (Ne.symm hm) _⟩
  · rw [delete_experiment_eq_inactive hname hact]
    exact ⟨rfl, _, rfl, dictLookup_dictErase_self (nodup_keys_load_index fs),
      by rw [if_neg hact], rfl, fun m hm => dictLookup_dictErase_ne (Ne.symm hm) _⟩

theorem delete_resets_active_witness :
    (delete_experiment "e1"
      { index_file := some
          { active_experiment := some "e1", global_labels := ["a"],
            experiments := [("e1", ⟨0, ["a"], "e1/config.yaml"⟩),
                            ("e2", ⟨1, [], "e2/config.yaml"⟩)] },
        dirs := ["e1", "e2"],
        configs := [("e1", [("lr", "0.01")]), ("e2", [("lr", "0.02")])] }).1.is_success = true :=
  (@delete_resets_active
    { index_file := some
        { active_experiment := some "e1", global_labels := ["a"],
          experiments := [("e1", ⟨0, ["a"], "e1/config.yaml"⟩),
                          ("e2", ⟨1, [], "e2/config.yaml"⟩)] },
      dirs := ["e1", "e2"],
      configs := [("e1", [("lr", "0.01")]), ("e2", [("lr", "0.02")])] }
    "e1" ⟨0, ["a"], "e1/config.yaml"⟩ (by decide)).1

theorem rename_experiment_dir_eq_ok {fs : FSState} {o n : String}
    (ho : o ∈ fs.dirs) (hn : n ∉ fs.dirs) :
    rename_experiment_dir o n fs = .ok { fs with
      dirs := fs.dirs.erase o ++ [n],
      configs :=
        match dictLookup o fs.configs with
        | some d => dictInsert n d (dictErase o fs.configs)
        | none => fs.configs } := by
  simp [rename_experiment_dir, ho, hn]

theorem rename_experiment_eq_active {fs : FSState} {o n : String} {meta : ExperimentMetadata}
    {ctx : ExperimentContext}
    (ho : dictLookup o (load_index fs).experiments = some meta)
    (hdo : o ∈ fs.dirs) (hdn : n ∉ fs.dirs)
    (hact : (load_index fs).active_experiment = some o) :
    rename_experiment o n ctx fs =
      ({ is_success := true, message := .renamed o n,
         current_index := some { load_index fs with
           active_experiment := some n,
           experiments := dictInsert n { meta with
               config_path := n ++ "/" ++ ctx.config_file_name }
             (dictErase o (load_index fs).experiments) } },
       save_index { load_index fs with
           active_experiment := some n,
           experiments := dictInsert n { meta with
               config_path := n ++ "/" ++ ctx.config_file_name }
             (dictErase o (load_index fs).experiments) }
         { fs with
           dirs := fs.dirs.erase o ++ [n],
           configs :=
             match dictLookup o fs.configs with
             | some d => dictInsert n d (dictErase o fs.configs)
             | none => fs.configs }) := by
  rw [rename_experiment]
  simp only [ho, rename_experiment_dir_eq_ok hdo hdn, hact, if_true, ite_true]

theorem rename_experiment_eq_inactive {fs : FSState} {o n : String} {meta : ExperimentMetadata}
    {ctx : ExperimentContext}
    (ho : dictLookup o (load_index fs).experiments = some meta)
    (hdo : o ∈ fs.dirs) (hdn : n ∉ fs.dirs)
    (hact : ¬ (load_index fs).active_experiment = some o) :
    rename_experiment o n ctx fs =
      ({ is_success := true, message := .renamed o n,
         current_index := some { load_index fs with
           experiments := dictInsert n { meta with
               config_path := n ++ "/" ++ ctx.config_file_name }
             (dictErase o (load_index fs).experiments) } },
       save_index { load_index fs with
           experiments := dictInsert n { meta with
               config_path := n ++ "/" ++ ctx.config_file_name }
             (dictErase o (load_index fs).experiments) }
         { fs with
           dirs := fs.dirs.erase o ++ [n],
           configs :=
             match dictLookup o fs.configs with
             | some d => dictInsert n d (dictErase o fs.configs)
             | none => fs.configs }) := by
  rw [rename_experiment]
  simp only [ho, rename_experiment_dir_eq_ok hdo hdn, hact, if_false, ite_false]

/-- Claim C7: when `old` is present in the index, its directory exists and the
new name's directory does not, `rename_experiment old new` succeeds and the
saved index has `new` carrying `old`'s `created_at` and `labels` with a
`config_path` recomputed from the new name, `old` is absent, and
`active_experiment` becomes `new` exactly when it was `old`. -/
theorem rename_preserves_identity {fs : FSState} {o n : String} {meta : ExperimentMetadata}
    {ctx : ExperimentContext}
    (ho : dictLookup o (load_index fs).experiments = some meta)
    (hdo : o ∈ fs.dirs) (hdn : n ∉ fs.dirs) :
    (rename_experiment o n ctx fs).1.is_success = true ∧
    ∃ idx, (rename_experiment o n ctx fs).2.index_file = some idx ∧
      dictLookup n idx.experiments = some
        { created_at := meta.created_at, labels := meta.labels,
          config_path := n ++ "/" ++ ctx.config_file_name } ∧
      dictLookup o idx.experiments = none ∧
      idx.active_experiment = (if (load_index fs).active_experiment = some o then some n
        else (load_index fs).active_experiment) ∧
      idx.global_labels = (load_index fs).global_labels := by
  have hne : n ≠ o := fun h => hdn (h ▸ hdo)
  by_cases hact : (load_index fs).active_experiment = some o
  · rw [rename_experiment_eq_active ho hdo hdn hact]
    exact ⟨rfl, _, rfl, dictLookup_dictInsert_self _ _ _,
      by rw [dictLookup_dictInsert_ne _ hne _,
        dictLookup_dictErase_self (nodup_keys_load_index fs)],
      by rw [if_pos hact], rfl⟩
  · rw [rename_experiment_eq_inactive ho hdo hdn hact]
    exact ⟨rfl, _, rfl, dictLookup_dictInsert_self _ _ _,
      by rw [dictLookup_dictInsert_ne _ hne _,
        dictLookup_dictErase_self (nodup_keys_load_index fs)],
      by rw [if_neg hact], rfl⟩

theorem rename_preserves_identity_witness :
    (rename_experiment "old1" "new1" { default_config := ⟨.dynamic, "DynamicConfig", [("lr", "0.01")]⟩ }
      { index_file := some
          { active_experiment := some "old1", global_labels := ["a", "b"],
            experiments := [("old1", ⟨7, ["a"], "old1/config.yaml"⟩)] },
        dirs := ["old1"],
        configs := [("old1", [("lr", "0.01")])] }).1.is_success = true :=
  (@rename_preserves_identity
    { index_file := some
        { active_experiment := some "old1", global_labels := ["a", "b"],
          experiments := [("old1", ⟨7, ["a"], "old1/config.yaml"⟩)] },
      dirs := ["old1"],
      configs := [("old1", [("lr", "0.01")])] }
    "old1" "new1" ⟨7, ["a"], "old1/config.yaml"⟩
    { default_config := ⟨.dynamic, "DynamicConfig", [("lr", "0.01")]⟩ }
    (by decide) (by decide) (by decide)).1

/-- Claim C10: renaming an experiment to its own current name always fails:
when `x` is present in the index and its directory exists, the destination
directory (the same directory) already exists, so `rename_experiment x x`
fails with the destination-exists error and leaves the index and the
directory tree unchanged. -/
theorem rename_self_fails {fs : FSState} {x : String} {meta : ExperimentMetadata}
    {ctx : ExperimentContext}
    (hx : dictLookup x (load_index fs).experiments = some meta)
    (hdir : x ∈ fs.dirs) :
    (rename_experiment x x ctx fs).1.is_success = false ∧
    (rename_experiment x x ctx fs).2 = fs ∧
    (rename_experiment x x ctx fs).1.message = .destDirExists x := by
  have hdirerr : rename_experiment_dir x x fs = .error .destExists := by
    simp [rename_experiment_dir, hdir]
  rw [rename_experiment]
  simp only [hx, hdirerr]
  exact ⟨trivial, trivial, trivial⟩

theorem rename_self_fails_witness :
    (rename_experiment "e1" "e1" { default_config := ⟨.dynamic, "DynamicConfig", [("lr", "0.01")]⟩ }
      { index_file := some
          { active_experiment := some "e1", global_labels := [],
            experiments := [("e1", ⟨3, [], "e1/config.yaml"⟩)] },
        dirs := ["e1"],
        configs := [("e1", [("lr", "0.01")])] }).1.is_success = false :=
  (@rename_self_fails
    { index_file := some
        { active_experiment := some "e1", global_labels := [],
          experiments := [("e1", ⟨3, [], "e1/config.yaml"⟩)] },
      dirs := ["e1"],
      configs := [("e1", [("lr", "0.01")])] }
    "e1" ⟨3, [], "e1/config.yaml"⟩
    { default_config := ⟨.dynamic, "DynamicConfig", [("lr", "0.01")]⟩ }
    (by decide) (by decide)).1

theorem update_labels_eq_subset {fs : FSState} {name : String} {meta : ExperimentMetadata}
    {labels : List String}
    (hname : dictLookup name (load_index fs).experiments = some meta)
    (hall : ∀ l ∈ labels, l ∈ (load_index fs).global_labels) :
    update_experiment_labels name labels fs =
      ({ is_success := true, message := .labelsUpdated name,
         current_index := some { load_index fs with
           experiments := dictInsert name { meta with labels := ensure_unique_list labels }
             (load_index fs).experiments } },
       save_index { load_index fs with
           experiments := dictInsert name { meta with labels := ensure_unique_list labels }
             (load_index fs).experiments } fs) := by
  rw [update_experiment_labels]
  simp only [hname, if_pos hall]

theorem update_labels_eq_unknown {fs : FSState} {name : String} {meta : ExperimentMetadata}
    {labels : List String}
    (hname : dictLookup name (load_index fs).experiments = some meta)
    (hnot : ¬ ∀ l ∈ labels, l ∈ (load_index fs).global_labels) :
    update_experiment_labels name labels fs =
      ({ is_success := false,
         message := .unknownLabels (ensure_unique_list
           (labels.filter (fun l => l ∉ (load_index fs).global_labels))) }, fs) := by
  rw [update_experiment_labels]
  simp only [hname, if_neg hnot]

/-- Claim C9: when `name` is present, `update_experiment_labels` fails with a
message listing exactly the requested labels missing from `global_labels`
whenever there is one, and otherwise succeeds and replaces the experiment's
label list with the request de-duplicated (first occurrence kept:
`ensure_unique_list` preserves membership and yields a duplicate-free list). -/
theorem update_labels_subset_enforcement {fs : FSState} {name : String}
    {meta : ExperimentMetadata} {labels : List String}
    (hname : dictLookup name (load_index fs).experiments = some meta) :
    ((∃ l ∈ labels, l ∉ (load_index fs).global_labels) →
      (update_experiment_labels name labels fs).1.is_success = false ∧
      (update_experiment_labels name labels fs).2 = fs ∧
      ∃ ls, (update_experiment_labels name labels fs).1.message = .unknownLabels ls ∧
        (∀ l, l ∈ ls ↔ (l ∈ labels ∧ l ∉ (load_index fs).global_labels))) ∧
    ((∀ l ∈ labels, l ∈ (load_index fs).global_labels) →
      (update_experiment_labels name labels fs).1.is_success = true ∧
      ∃ idx, (update_experiment_labels name labels fs).2.index_file = some idx ∧
        dictLookup name idx.experiments = some { meta with labels := ensure_unique_list labels } ∧
        (ensure_unique_list labels).Nodup ∧
        (∀ l, l ∈ ensure_unique_list labels ↔ l ∈ labels)) := by
  constructor
  · rintro ⟨l0, hl0, hnl0⟩
    have hnot : ¬ ∀ l ∈ labels, l ∈ (load_index fs).global_labels :=
      fun h => hnl0 (h l0 hl0)
    rw [update_labels_eq_unknown hname hnot]
    refine ⟨rfl, rfl, _, rfl, fun l => ?_⟩
    rw [mem_ensure_unique_list, List.mem_filter]
    simp
  · intro hall
    rw [update_labels_eq_subset hname hall]
    exact ⟨rfl, _, rfl, dictLookup_dictInsert_self _ _ _,
      nodup_ensure_unique_list _, fun l => mem_ensure_unique_list⟩

theorem update_labels_subset_enforcement_witness :
    (update_experiment_labels "e" ["x"]
      { index_file := some
          { active_experiment := none, global_labels := ["a"],
            experiments := [("e", ⟨0, [], "e/config.yaml"⟩)] },
        dirs := ["e"], configs := [("e", [("lr", "0.01")])] }).1.is_success = false ∧
    (update_experiment_labels "e" ["a"]
      { index_file := some
          { active_experiment := none, global_labels := ["a"],
            experiments := [("e", ⟨0, [], "e/config.yaml"⟩)] },
        dirs := ["e"], configs := [("e", [("lr", "0.01")])] }).1.is_success = true :=
  ⟨((@update_labels_subset_enforcement
      { index_file := some
          { active_experiment := none, global_labels := ["a"],
            experiments := [("e", ⟨0, [], "e/config.yaml"⟩)] },
        dirs := ["e"], configs := [("e", [("lr", "0.01")])] }
      "e" ⟨0, [], "e/config.yaml"⟩ ["x"]
      (by decide)).1 ⟨"x", by decide, by decide⟩).1,
   ((@update_labels_subset_enforcement
      { index_file := some
          { active_experiment := none, global_labels := ["a"],
            experiments := [("e", ⟨0, [], "e/config.yaml"⟩)] },
        dirs := ["e"], configs := [("e", [("lr", "0.01")])] }
      "e" ⟨0, [], "e/config.yaml"⟩ ["a"]
      (by decide)).2 (by decide)).1⟩


/-- Claim C5 (code bug): `remove_global_labels` never returns a response —
`schemas/responses.py` has no `ResponseRemoveGlobalLabels`, so every branch,
including the `except` handler, raises `AttributeError` and the exception
escapes. Evaluated at the failing inputs: with `global_labels = ["a"]`, the
disjoint request `["z"]` escapes with nothing persisted (instead of the
claimed `is_success = false` response reporting the not-found labels), and
the request `["a", "b"]` first persists the filtered index (removing `"a"`
everywhere) and then escapes (instead of returning any response at all). -/
theorem remove_global_labels_never_returns :
    remove_global_labels ["z"]
      { index_file := some { active_experiment := none, global_labels := ["a"], experiments := [] },
        dirs := [], configs := [] } =
      (.attrError,
       { index_file := some { active_experiment := none, global_labels := ["a"], experiments := [] },
         dirs := [], configs := [] }) ∧
    remove_global_labels ["a", "b"]
      { index_file := some { active_experiment := none, global_labels := ["a"], experiments := [] },
        dirs := [], configs := [] } =
      (.attrError,
       { index_file := some { active_experiment := none, global_labels := [], experiments := [] },
         dirs := [], configs := [] }) := by
  constructor
  · decide
  · decide

theorem validate_config_type_iff {cfg : ConfigDoc} {ctx : ExperimentContext} :
    validate_config_type cfg ctx = true ↔ cfg.kind = ctx.default_config.kind := by
  obtain ⟨⟨dk, dsn, dfl⟩, cfn⟩ := ctx
  obtain ⟨ck, csn, cfl⟩ := cfg
  cases dk <;> cases ck <;> simp [validate_config_type]

theorem validate_config_type_eq_false {cfg : ConfigDoc} {ctx : ExperimentContext}
    (h : cfg.kind ≠ ctx.default_config.kind) : validate_config_type cfg ctx = false := by
  rcases Bool.eq_false_or_eq_true (validate_config_type cfg ctx) with hv | hv
  · exact absurd (validate_config_type_iff.mp hv) h
  · exact hv

theorem update_experiment_config_eq_mismatch {fs : FSState} {name : String}
    {cfg : ConfigDoc} {ctx : ExperimentContext}
    (hv : validate_config_type cfg ctx = false) :
    update_experiment_config name cfg ctx fs =
      ({ is_success := false,
         message := .typeMismatch ctx.default_config.schemaName cfg.schemaName }, fs) := by
  rw [update_experiment_config]
  simp only [hv, Bool.not_false, if_true, ite_true]

theorem create_experiment_eq_mismatch {fs : FSState} {name : String}
    {cfg : ConfigDoc} {now : Nat} {ctx : ExperimentContext}
    (hv : validate_config_type cfg ctx = false) :
    create_experiment name (some cfg) now ctx fs =
      ({ is_success := false,
         message := .typeMismatch ctx.default_config.schemaName cfg.schemaName }, fs) := by
  rw [create_experiment, create_experiment_core]
  simp only [Option.getD_some, hv, Bool.not_false, if_true, ite_true]

/-- Claim C2 (amended): the configuration gate of `_validate_config_type`
compares only the representation kind of the supplied document against the
context's default (Pydantic `BaseModel` instance versus dynamic
`ConfigClass`); a supplied configuration whose kind differs from the
default's is rejected by `update_experiment_config` and `create_experiment`
with the file system untouched. The field set (`schema_identity`) is not
compared — see the counterexample. `copy_experiment` receives no supplied
configuration: it reloads the source file through the default's class, so
its kind always matches. -/
theorem config_kind_gate {fs : FSState} {name : String} {cfg : ConfigDoc}
    {now : Nat} {ctx : ExperimentContext}
    (h : cfg.kind ≠ ctx.default_config.kind) :
    ((update_experiment_config name cfg ctx fs).1.is_success = false ∧
     (update_experiment_config name cfg ctx fs).2 = fs) ∧
    ((create_experiment name (some cfg) now ctx fs).1.is_success = false ∧
     (create_experiment name (some cfg) now ctx fs).2 = fs) := by
  have hv := validate_config_type_eq_false h
  rw [update_experiment_config_eq_mismatch hv, create_experiment_eq_mismatch hv]
  exact ⟨⟨rfl, rfl⟩, ⟨rfl, rfl⟩⟩

theorem config_kind_gate_witness :
    (update_experiment_config "e" ⟨.dynamic, "DynamicConfig", [("lr", "0.5")]⟩
      { default_config := ⟨.basemodel, "ConfigB", [("x", "1")]⟩ }
      { index_file := some
          { active_experiment := none, global_labels := [],
            experiments := [("e", ⟨0, [], "e/config.yaml"⟩)] },
        dirs := ["e"], configs := [("e", [("x", "1")])] }).1.is_success = false ∧
    (create_experiment "f" (some ⟨.dynamic, "DynamicConfig", [("lr", "0.5")]⟩) 3
      { default_config := ⟨.basemodel, "ConfigB", [("x", "1")]⟩ }
      { index_file := some
          { active_experiment := none, global_labels := [],
            experiments := [("e", ⟨0, [], "e/config.yaml"⟩)] },
        dirs := ["e"], configs := [("e", [("x", "1")])] }).1.is_success = false :=
  ⟨(@config_kind_gate
      { index_file := some
          { active_experiment := none, global_labels := [],
            experiments := [("e", ⟨0, [], "e/config.yaml"⟩)] },
        dirs := ["e"], configs := [("e", [("x", "1")])] }
      "e" ⟨.dynamic, "DynamicConfig", [("lr", "0.5")]⟩ 3
      { default_config := ⟨.basemodel, "ConfigB", [("x", "1")]⟩ }
      (by decide)).1.1,
   (@config_kind_gate
      { index_file := some
          { active_experiment := none, global_labels := [],
            experiments := [("e", ⟨0, [], "e/config.yaml"⟩)] },
        dirs := ["e"], configs := [("e", [("x", "1")])] }
      "f" ⟨.dynamic, "DynamicConfig", [("lr", "0.5")]⟩ 3
      { default_config := ⟨.basemodel, "ConfigB", [("x", "1")]⟩ }
      (by decide)).2.1⟩

/-- Claim C2, counterexample to the claim as stated: the context's default is
a schema-typed configuration with field set `{x}`, the supplied configuration
is schema-typed with the different field set `{y}` — so its schema identity
(set of fields) differs from the default's — yet `update_experiment_config`
accepts it (`is_success = true`), because the code compares only
`isinstance`-kinds, never field sets. -/
theorem schema_identity_not_enforced_ce :
    schema_identity ⟨.basemodel, "ConfigA", [("y", "hi")]⟩ ≠
      schema_identity (ExperimentContext.default_config
        { default_config := ⟨.basemodel, "ConfigB", [("x", "1")]⟩ }) ∧
    (update_experiment_config "e" ⟨.basemodel, "ConfigA", [("y", "hi")]⟩
      { default_config := ⟨.basemodel, "ConfigB", [("x", "1")]⟩ }
      { index_file := some
          { active_experiment := none, global_labels := [],
            experiments := [("e", ⟨0, [], "e/config.yaml"⟩)] },
        dirs := ["e"], configs := [("e", [("x", "1")])] }).1.is_success = true := by
  constructor
  · intro hid
    have := congrArg Prod.snd hid
    simp [schema_identity] at this
  · decide

theorem create_experiment_core_error_of_dir {name : String} {cfg : ConfigDoc}
    {labels : List String} {now : Nat} {ctx : ExperimentContext} {fs : FSState}
    (hdir : name ∈ fs.dirs) :
    ∃ m, create_experiment_core name cfg labels now ctx fs = .error m := by
  rw [create_experiment_core]
  split
  · exact ⟨_, rfl⟩
  · exact ⟨_, rfl⟩

/-- Claim C3: when the requested name is already a key of the loaded index's
experiments map and the index is in sync with the disk (`DirSync`: every
indexed experiment's directory exists, which every operation maintains),
`create_experiment` fails and leaves the file system — index file included,
hence the existing entry's `created_at` and `labels` — unchanged. The check
the code performs is the directory-existence test in
`_create_experiment_core`; under `DirSync` it subsumes index membership. -/
theorem create_on_existing_fails {fs : FSState} {name : String} {cfg : Option ConfigDoc}
    {now : Nat} {ctx : ExperimentContext}
    (hmem : dictContains name (load_index fs).experiments = true)
    (hsync : DirSync fs) :
    (create_experiment name cfg now ctx fs).1.is_success = false ∧
    (create_experiment name cfg now ctx fs).2 = fs := by
  rw [dictContains] at hmem
  obtain ⟨meta, hname⟩ := Option.isSome_iff_exists.mp hmem
  have hdir : name ∈ fs.dirs := hsync _ (mem_of_dictLookup_eq_some hname)
  obtain ⟨m, hm⟩ :=
    @create_experiment_core_error_of_dir name (cfg.getD ctx.default_config) [] now ctx fs hdir
  simp only [create_experiment, hm]
  exact ⟨by trivial, by trivial⟩

theorem create_on_existing_fails_witness :
    (create_experiment "exp_001" none 1
      { default_config := ⟨.dynamic, "DynamicConfig", [("lr", "0.01")]⟩ }
      (create_experiment "exp_001" none 0
        { default_config := ⟨.dynamic, "DynamicConfig", [("lr", "0.01")]⟩ }
        {}).2).1.is_success = false :=
  (create_on_existing_fails (by decide) (by decide)).1

/-- Claim C6: `get_experiment_config` never mutates anything, and under the
no-orphan consistency invariant (`ConfigSync`: every stored config file
belongs to an indexed experiment) a request for a name that is not a key of
the loaded index fails; on success the response carries the loaded
configuration. The code's own check is the file-existence test inside
`load_config`; under `ConfigSync` a name outside the index has no file. -/
theorem get_config_requires_membership {fs : FSState} {name : String}
    {ctx : ExperimentContext} (hsync : ConfigSync fs) :
    ((dictContains name (load_index fs).experiments = false) →
      (get_experiment_config name ctx fs).1.is_success = false) ∧
    (get_experiment_config name ctx fs).2 = fs ∧
    ((get_experiment_config name ctx fs).1.is_success = true →
      (get_experiment_config name ctx fs).1.config = load_config name ctx fs ∧
      (get_experiment_config name ctx fs).1.config ≠ none) := by
  refine ⟨?_, ?_, ?_⟩
  · intro hmem
    have hnone : dictLookup name fs.configs = none := by
      cases hc : dictLookup name fs.configs with
      | none => rfl
      | some d =>
        have hmm := hsync _ (mem_of_dictLookup_eq_some hc)
        rw [hmem] at hmm
        exact absurd hmm (by simp)
    have hload : load_config name ctx fs = none := by
      rw [load_config, hnone]
    simp [get_experiment_config, hload]
  · cases hload : load_config name ctx fs <;> simp [get_experiment_config, hload]
  · intro hsucc
    cases hload : load_config name ctx fs with
    | none =>
      rw [get_experiment_config] at hsucc
      simp only [hload] at hsucc
      exact absurd hsucc (by simp)
    | some c =>
      simp only [get_experiment_config, hload]
      exact ⟨by trivial, by simp⟩

theorem get_config_requires_membership_witness :
    (get_experiment_config "ghost"
      { default_config := ⟨.dynamic, "DynamicConfig", [("lr", "0.01")]⟩ }
      { index_file := some
          { active_experiment := none, global_labels := [],
            experiments := [("e", ⟨0, [], "e/config.yaml"⟩)] },
        dirs := ["e"], configs := [("e", [("lr", "0.01")])] }).1.is_success = false :=
  ((get_config_requires_membership (by decide)).1 (by decide))

/-! Consistency of the disk layout with the index is itself an invariant of
the operations; this justifies the `DirSync`/`ConfigSync` hypotheses above as
descriptions of every state the system can reach from a fresh workspace. -/

theorem dictContains_of_mem {α : Type} {k : String} {v : α} :
    ∀ {d : List (String × α)}, (k, v) ∈ d → dictContains k d = true := by
  intro d
  induction d with
  | nil => intro h; exact absurd h (by simp)
  | cons q rest ih =>
    obtain ⟨k1, v1⟩ := q
    intro h
    rw [dictContains, dictLookup]
    by_cases h1 : k1 = k
    · rw [if_pos h1]; rfl
    · rw [if_neg h1]
      rcases List.mem_cons.mp h with heq | h
      · exact absurd (congrArg Prod.fst heq).symm h1
      · exact ih h

theorem mem_keys_iff_exists {α : Type} {k : String} {d : List (String × α)} :
    k ∈ dictKeys d ↔ ∃ v, (k, v) ∈ d := by
  rw [dictKeys, List.mem_map]
  constructor
  · rintro ⟨⟨k1, v1⟩, hm, rfl⟩
    exact ⟨v1, hm⟩
  · rintro ⟨v, hv⟩
    exact ⟨(k, v), hv, rfl⟩

theorem contains_iff_mem_keys {α : Type} {k : String} {d : List (String × α)} :
    dictContains k d = true ↔ k ∈ dictKeys d := by
  constructor
  · intro h
    rw [dictContains, Option.isSome_iff_exists] at h
    obtain ⟨v, hv⟩ := h
    exact mem_keys_iff_exists.mpr ⟨v, mem_of_dictLookup_eq_some hv⟩
  · intro h
    obtain ⟨v, hv⟩ := mem_keys_iff_exists.mp h
    exact dictContains_of_mem hv

theorem not_mem_keys_of_lookup_none {α : Type} {k : String} {d : List (String × α)}
    (h : dictLookup k d = none) : k ∉ dictKeys d := by
  intro hk
  have := contains_iff_mem_keys.mpr hk
  rw [dictContains, h] at this
  exact absurd this (by simp)

theorem mem_keys_dedupKeysAux_iff {α : Type} {k : String} :
    ∀ (d : List (String × α)) (seen : List String),
      k ∈ dictKeys (dedupKeysAux seen d) ↔ (k ∈ dictKeys d ∧ k ∉ seen) := by
  intro d
  induction d with
  | nil => intro seen; simp [dedupKeysAux, dictKeys]
  | cons q rest ih =>
    obtain ⟨k1, v1⟩ := q
    intro seen
    by_cases h1 : k1 ∈ seen
    · rw [dedupKeysAux, if_pos h1, ih seen]
      constructor
      · rintro ⟨hm, hs⟩
        refine ⟨?_, hs⟩
        rw [dictKeys, List.map_cons]
        exact List.mem_cons_of_mem _ hm
      · rintro ⟨hm, hs⟩
        rw [dictKeys, List.map_cons] at hm
        rcases List.mem_cons.mp hm with rfl | hm
        · exact absurd h1 hs
        · exact ⟨hm, hs⟩
    · rw [dedupKeysAux, if_neg h1]
      rw [dictKeys, List.map_cons, dictKeys, List.map_cons]
      simp only [List.mem_cons]
      constructor
      · rintro (rfl | hm)
        · exact ⟨Or.inl rfl, h1⟩
        · rcases (ih (k1 :: seen)).mp hm with ⟨hm1, hs1⟩
          exact ⟨Or.inr hm1, fun hs => hs1 (List.mem_cons_of_mem _ hs)⟩
      · rintro ⟨rfl | hm, hs⟩
        · exact Or.inl rfl
        · by_cases hk1 : k = k1
          · exact Or.inl hk1
          · refine Or.inr ((ih (k1 :: seen)).mpr ⟨hm, fun hmem => ?_⟩)
            rcases List.mem_cons.mp hmem with h | h
            · exact hk1 h
            · exact hs h

theorem keys_map_snd {α β : Type} (g : String × α → β) :
    ∀ d : List (String × α), dictKeys (d.map (fun p => (p.1, g p))) = dictKeys d := by
  intro d
  induction d with
  | nil => rfl
  | cons q rest ih =>
    rw [List.map_cons, dictKeys, List.map_cons]
    rw [dictKeys] at ih
    rw [ih]
    rfl

theorem contains_normalizeIndex {k : String} {idx : ExperimentIndex} :
    dictContains k (normalizeIndex idx).experiments = dictContains k idx.experiments := by
  have hiff : k ∈ dictKeys (normalizeIndex idx).experiments ↔
      k ∈ dictKeys idx.experiments := by
    rw [normalizeIndex]
    simp only
    rw [dedupKeys, mem_keys_dedupKeysAux_iff, keys_map_snd]
    simp
  rcases Bool.eq_false_or_eq_true (dictContains k idx.experiments) with h | h
  · rw [h]
    exact contains_iff_mem_keys.mpr (hiff.mpr (contains_iff_mem_keys.mp h))
  · rw [h]
    rcases Bool.eq_false_or_eq_true
      (dictContains k (normalizeIndex idx).experiments) with h2 | h2
    · have hm := hiff.mp (contains_iff_mem_keys.mp h2)
      have hc := contains_iff_mem_keys.mpr hm
      exact absurd (hc.symm.trans h) (by simp)
    · exact h2

theorem contains_dictInsert_self {α : Type} {k : String} {v : α} {d : List (String × α)} :
    dictContains k (dictInsert k v d) = true := by
  rw [dictContains, dictLookup_dictInsert_self]
  rfl

theorem contains_dictInsert_of {α : Type} {k0 k : String} {v : α} {d : List (String × α)}
    (h : dictContains k0 d = true) : dictContains k0 (dictInsert k v d) = true := by
  by_cases hk : k = k0
  · subst hk
    exact contains_dictInsert_self
  · rw [dictContains, dictLookup_dictInsert_ne v hk]
    exact h

theorem contains_dictErase_ne {α : Type} {k k0 : String} {d : List (String × α)}
    (h : k ≠ k0) : dictContains k0 (dictErase k d) = dictContains k0 d := by
  rw [dictContains, dictContains, dictLookup_dictErase_ne h]

theorem mem_keys_dictInsert_elim {α : Type} {k1 k : String} {v : α} {d : List (String × α)}
    (h : k1 ∈ dictKeys (dictInsert k v d)) : k1 = k ∨ k1 ∈ dictKeys d := by
  obtain ⟨w, hw⟩ := mem_keys_iff_exists.mp h
  rcases mem_dictInsert_elim hw with heq | hm
  · exact Or.inl (congrArg Prod.fst heq)
  · exact Or.inr (mem_keys_iff_exists.mpr ⟨w, hm⟩)

theorem nodupKeys_dictInsert {α : Type} {k : String} {v : α} :
    ∀ {d : List (String × α)}, (dictKeys d).Nodup → (dictKeys (dictInsert k v d)).Nodup := by
  intro d
  induction d with
  | nil => intro _; simp [dictInsert, dictKeys]
  | cons q rest ih =>
    obtain ⟨k1, v1⟩ := q
    intro hnd
    rw [dictKeys, List.map_cons, List.nodup_cons] at hnd
    by_cases h1 : k1 = k
    · subst h1
      rw [dictInsert, if_pos rfl, dictKeys, List.map_cons, List.nodup_cons]
      exact ⟨hnd.1, hnd.2⟩
    · rw [dictInsert, if_neg h1, dictKeys, List.map_cons, List.nodup_cons]
      refine ⟨fun hmem => ?_, ih hnd.2⟩
      rcases mem_keys_dictInsert_elim hmem with rfl | hm
      · exact h1 rfl
      · exact hnd.1 hm

theorem mem_keys_dictErase_sub {α : Type} {k1 k : String} {d : List (String × α)}
    (h : k1 ∈ dictKeys (dictErase k d)) : k1 ∈ dictKeys d := by
  obtain ⟨w, hw⟩ := mem_keys_iff_exists.mp h
  exact mem_keys_iff_exists.mpr ⟨w, mem_dictErase_sub hw⟩

theorem nodupKeys_dictErase {α : Type} {k : String} :
    ∀ {d : List (String × α)}, (dictKeys d).Nodup → (dictKeys (dictErase k d)).Nodup := by
  intro d
  induction d with
  | nil => intro _; simp [dictErase, dictKeys]
  | cons q rest ih =>
    obtain ⟨k1, v1⟩ := q
    intro hnd
    rw [dictKeys, List.map_cons, List.nodup_cons] at hnd
    by_cases h1 : k1 = k
    · rw [dictErase, if_pos h1]
      exact hnd.2
    · rw [dictErase, if_neg h1, dictKeys, List.map_cons, List.nodup_cons]
      exact ⟨fun hmem => hnd.1 (mem_keys_dictErase_sub hmem), ih hnd.2⟩

theorem ne_of_mem_dictErase {α : Type} {p : String × α} {k : String} {d : List (String × α)}
    (hnd : (dictKeys d).Nodup) (hm : p ∈ dictErase k d) : p.1 ≠ k := by
  intro hk
  have hp : (p.1, p.2) ∈ dictErase k d := hm
  have hcon := dictContains_of_mem hp
  rw [hk, dictContains, dictLookup_dictErase_self hnd] at hcon
  exact absurd hcon (by simp)

theorem contains_map_keys {α : Type} {k : String} {g : String × α → α} {d : List (String × α)} :
    dictContains k (d.map (fun p => (p.1, g p))) = dictContains k d := by
  rcases Bool.eq_false_or_eq_true (dictContains k d) with h | h
  · rw [h]
    rw [contains_iff_mem_keys] at h ⊢
    rw [keys_map_snd]
    exact h
  · rw [h]
    rcases Bool.eq_false_or_eq_true
      (dictContains k (d.map (fun p => (p.1, g p)))) with h2 | h2
    · rw [contains_iff_mem_keys, keys_map_snd] at h2
      exact absurd ((contains_iff_mem_keys.mpr h2).symm.trans h) (by simp)
    · exact h2

theorem dirSync_save_index {idx1 : ExperimentIndex} {fs1 : FSState}
    (h : ∀ q ∈ idx1.experiments, q.1 ∈ fs1.dirs) : DirSync (save_index idx1 fs1) := by
  intro p hp
  have hload : load_index (save_index idx1 fs1) = normalizeIndex idx1 := rfl
  rw [hload, normalizeIndex] at hp
  simp only at hp
  rw [dedupKeys] at hp
  rcases List.mem_map.mp (mem_dedupKeysAux_sub _ [] hp) with ⟨q, hq, rfl⟩
  exact h q hq

theorem configSync_save_index {idx1 : ExperimentIndex} {fs1 : FSState}
    (h : ∀ p ∈ fs1.configs, dictContains p.1 idx1.experiments = true) :
    ConfigSync (save_index idx1 fs1) := by
  intro p hp
  have hload : load_index (save_index idx1 fs1) = normalizeIndex idx1 := rfl
  rw [hload, contains_normalizeIndex]
  exact h p hp

theorem mem_dirs_save_config_self {n : String} {c : ConfigDoc} {fs : FSState} :
    n ∈ (save_config n c fs).dirs := by
  rw [save_config]
  simp only
  split
  · assumption
  · simp

theorem mem_dirs_save_config_of {a n : String} {c : ConfigDoc} {fs : FSState}
    (h : a ∈ fs.dirs) : a ∈ (save_config n c fs).dirs := by
  rw [save_config]
  simp only
  split
  · exact h
  · exact List.mem_append_left _ h

theorem consistent_core {fs : FSState} {n : String} {c : ConfigDoc} {labels : List String}
    {now : Nat} {ctx : ExperimentContext} (hc : Consistent fs) :
    ∀ r, create_experiment_core n c labels now ctx fs = .ok r → Consistent r.2 := by
  intro r hr
  rw [create_experiment_core] at hr
  split at hr
  · exact absurd hr (by simp)
  · split at hr
    · exact absurd hr (by simp)
    · rw [Except.ok.injEq] at hr
      subst hr
      refine ⟨dirSync_save_index fun q hq => ?_, configSync_save_index fun p hp => ?_, ?_⟩
      · rcases mem_dictInsert_elim hq with rfl | hq
        · exact mem_dirs_save_config_self
        · exact mem_dirs_save_config_of (hc.1 q hq)
      · rcases mem_dictInsert_elim hp with rfl | hp
        · exact contains_dictInsert_self
        · exact contains_dictInsert_of (hc.2.1 p hp)
      · exact nodupKeys_dictInsert hc.2.2

theorem consistent_create {fs : FSState} {n : String} {c : Option ConfigDoc} {now : Nat}
    {ctx : ExperimentContext} (hc : Consistent fs) :
    Consistent (create_experiment n c now ctx fs).2 := by
  rw [create_experiment]
  split
  · rename_i r hr
    exact consistent_core hc _ hr
  · exact hc

theorem consistent_copy {fs : FSState} {src dst : String} {now : Nat}
    {ctx : ExperimentContext} (hc : Consistent fs) :
    Consistent (copy_experiment src dst now ctx fs).2 := by
  rw [copy_experiment]
  split
  · exact hc
  · split
    · exact hc
    · split
      · rename_i r hr
        exact consistent_core hc _ hr
      · exact hc

theorem consistent_set_active {fs : FSState} {n : String} (hc : Consistent fs) :
    Consistent (set_active_experiment n fs).2 := by
  rw [set_active_experiment]
  simp only
  split
  · exact hc
  · exact ⟨dirSync_save_index fun q hq => hc.1 q hq,
      configSync_save_index fun p hp => hc.2.1 p hp, hc.2.2⟩

theorem delete_experiment_data_eq {name : String} {fs : FSState} (h : name ∈ fs.dirs) :
    delete_experiment_data name fs =
      { fs with dirs := fs.dirs.erase name, configs := dictErase name fs.configs } := by
  rw [delete_experiment_data, if_pos h]

theorem consistent_delete {fs : FSState} {name : String} (hc : Consistent fs) :
    Consistent (delete_experiment name fs).2 := by
  cases hname : dictLookup name (load_index fs).experiments with
  | none =>
    rw [delete_experiment]
    simp only [dictContains, hname]
    exact hc
  | some meta =>
    have hdir : name ∈ fs.dirs := hc.1 _ (mem_of_dictLookup_eq_some hname)
    have hdel := @delete_experiment_data_eq name fs hdir
    have hmain : ∀ act : Option String, ∀ G : List String,
        Consistent (save_index
          { active_experiment := act, global_labels := G,
            experiments := dictErase name (load_index fs).experiments }
          (delete_experiment_data name fs)) := by
      intro act G
      refine ⟨dirSync_save_index fun q hq => ?_, configSync_save_index fun p hp => ?_, ?_⟩
      · have hne := ne_of_mem_dictErase (nodup_keys_load_index fs) hq
        rw [hdel]
        exact (List.mem_erase_of_ne hne).mpr (hc.1 q (mem_dictErase_sub hq))
      · rw [hdel] at hp
        have hne := ne_of_mem_dictErase hc.2.2 hp
        rw [contains_dictErase_ne (Ne.symm hne)]
        exact hc.2.1 p (mem_dictErase_sub hp)
      · rw [hdel]
        exact nodupKeys_dictErase hc.2.2
    by_cases hact : (load_index fs).active_experiment = some name
    · rw [delete_experiment_eq_active hname hact]
      exact hmain none (load_index fs).global_labels
    · rw [delete_experiment_eq_inactive hname hact]
      exact hmain (load_index fs).active_experiment (load_index fs).global_labels

theorem consistent_update_config {fs : FSState} {name : String} {cfg : ConfigDoc}
    {ctx : ExperimentContext} (hc : Consistent fs) :
    Consistent (update_experiment_config name cfg ctx fs).2 := by
  rw [update_experiment_config]
  split
  · exact hc
  · split
    · exact hc
    · rename_i h1 h2
      have hmem : dictContains name (load_index fs).experiments = true := by
        rcases Bool.eq_false_or_eq_true (dictContains name (load_index fs).experiments)
          with h | h
        · exact h
        · rw [h] at h2
          exact absurd rfl h2
      refine ⟨?_, ?_, ?_⟩
      · intro p hp
        rw [load_index_save_config] at hp
        exact mem_dirs_save_config_of (hc.1 p hp)
      · intro p hp
        rw [load_index_save_config]
        rcases mem_dictInsert_elim hp with rfl | hp
        · exact hmem
        · exact hc.2.1 p hp
      · exact nodupKeys_dictInsert hc.2.2

theorem consistent_rename_saved {fs : FSState} {o n : String} {meta1 : ExperimentMetadata}
    {act : Option String} {G : List String}
    (hc : Consistent fs) :
    Consistent (save_index
      { active_experiment := act, global_labels := G,
        experiments := dictInsert n meta1 (dictErase o (load_index fs).experiments) }
      { fs with
        dirs := fs.dirs.erase o ++ [n],
        configs :=
          match dictLookup o fs.configs with
          | some d => dictInsert n d (dictErase o fs.configs)
          | none => fs.configs }) := by
  refine ⟨dirSync_save_index fun q hq => ?_, configSync_save_index fun p hp => ?_, ?_⟩
  · simp only
    rcases mem_dictInsert_elim hq with rfl | hq
    · exact List.mem_append_right _ (by simp)
    · have hne := ne_of_mem_dictErase (nodup_keys_load_index fs) hq
      exact List.mem_append_left _
        ((List.mem_erase_of_ne hne).mpr (hc.1 q (mem_dictErase_sub hq)))
  · simp only at hp
    cases hcfg : dictLookup o fs.configs with
    | some d =>
      rw [hcfg] at hp
      rcases mem_dictInsert_elim hp with rfl | hp
      · exact contains_dictInsert_self
      · have hne := ne_of_mem_dictErase hc.2.2 hp
        refine contains_dictInsert_of ?_
        rw [contains_dictErase_ne (Ne.symm hne)]
        exact hc.2.1 p (mem_dictErase_sub hp)
    | none =>
      rw [hcfg] at hp
      have hne : p.1 ≠ o := by
        intro hk
        exact not_mem_keys_of_lookup_none hcfg
          (hk ▸ mem_keys_iff_exists.mpr ⟨p.2, hp⟩)
      refine contains_dictInsert_of ?_
      rw [contains_dictErase_ne (Ne.symm hne)]
      exact hc.2.1 p hp
  · cases hcfg : dictLookup o fs.configs with
    | some d =>
      show (dictKeys (dictInsert n d (dictErase o fs.configs))).Nodup
      exact nodupKeys_dictInsert (nodupKeys_dictErase hc.2.2)
    | none =>
      show (dictKeys fs.configs).Nodup
      exact hc.2.2

theorem consistent_rename {fs : FSState} {o n : String} {ctx : ExperimentContext}
    (hc : Consistent fs) : Consistent (rename_experiment o n ctx fs).2 := by
  cases ho : dictLookup o (load_index fs).experiments with
  | none =>
    rw [rename_experiment]
    simp only [ho]
    exact hc
  | some meta =>
    by_cases hdo : o ∈ fs.dirs
    · by_cases hdn : n ∈ fs.dirs
      · have herr : rename_experiment_dir o n fs = .error .destExists := by
          simp [rename_experiment_dir, hdo, hdn]
        rw [rename_experiment]
        simp only [ho, herr]
        exact hc
      · by_cases hact : (load_index fs).active_experiment = some o
        · rw [rename_experiment_eq_active ho hdo hdn hact]
          exact consistent_rename_saved hc
        · rw [rename_experiment_eq_inactive ho hdo hdn hact]
          exact consistent_rename_saved hc
    · have herr : rename_experiment_dir o n fs = .error .srcMissing := by
        simp [rename_experiment_dir, hdo]
      rw [rename_experiment]
      simp only [ho, herr]
      exact hc

theorem consistent_get_config {fs : FSState} {n : String} {ctx : ExperimentContext}
    (hc : Consistent fs) : Consistent (get_experiment_config n ctx fs).2 := by
  rw [get_experiment_config]
  split
  · exact hc
  · exact hc

theorem consistent_insert_existing {fs : FSState} {name : String}
    {meta meta1 : ExperimentMetadata} {act : Option String} {G : List String}
    (hc : Consistent fs)
    (hname : dictLookup name (load_index fs).experiments = some meta) :
    Consistent (save_index
      { active_experiment := act, global_labels := G,
        experiments := dictInsert name meta1 (load_index fs).experiments } fs) := by
  refine ⟨dirSync_save_index fun q hq => ?_, configSync_save_index fun p hp => ?_, hc.2.2⟩
  · rcases mem_dictInsert_elim hq with rfl | hq
    · have hmem := hc.1 _ (mem_of_dictLookup_eq_some hname)
      exact hmem
    · exact hc.1 q hq
  · exact contains_dictInsert_of (hc.2.1 p hp)

theorem consistent_add_labels {fs : FSState} {name : String} {labels : List String}
    (hc : Consistent fs) : Consistent (add_labels_to_experiment name labels fs).2 := by
  rw [add_labels_to_experiment]
  split
  · exact hc
  · rename_i meta hname
    split
    · exact hc
    · exact consistent_insert_existing hc hname

theorem consistent_remove_global {fs : FSState} {labels : List String}
    (hc : Consistent fs) : Consistent (remove_global_labels labels fs).2 := by
  rw [remove_global_labels]
  split
  · exact hc
  · refine ⟨dirSync_save_index fun q hq => ?_, configSync_save_index fun p hp => ?_, hc.2.2⟩
    · simp only at hq
      rcases List.mem_map.mp hq with ⟨q0, hq0, rfl⟩
      exact hc.1 q0 hq0
    · simp only
      rw [contains_map_keys]
      exact hc.2.1 p hp

theorem consistent_update_labels {fs : FSState} {name : String} {labels : List String}
    (hc : Consistent fs) : Consistent (update_experiment_labels name labels fs).2 := by
  rw [update_experiment_labels]
  split
  · exact hc
  · rename_i meta hname
    split
    · exact consistent_insert_existing hc hname
    · exact hc

theorem consistent_applyOp {ctx : ExperimentContext} {fs : FSState} (hc : Consistent fs) :
    ∀ op, Consistent (applyOp ctx fs op)
  | .create .. => consistent_create hc
  | .setActive _ => consistent_set_active hc
  | .delete _ => consistent_delete hc
  | .copy .. => consistent_copy hc
  | .updateConfig .. => consistent_update_config hc
  | .rename .. => consistent_rename hc
  | .getConfig _ => consistent_get_config hc
  | .addLabels .. => consistent_add_labels hc
  | .removeGlobalLabels _ => consistent_remove_global hc
  | .updateLabels .. => consistent_update_labels hc

theorem consistent_runOps {ctx : ExperimentContext} :
    ∀ (ops : List Op) (fs : FSState), Consistent fs → Consistent (runOps ctx fs ops)
  | [], _, hc => hc
  | op :: rest, _, hc => consistent_runOps rest _ (consistent_applyOp hc op)

/-- Every state the core operations can produce from a fresh workspace (no
index file, no stored configs, any pre-existing directories) satisfies the
disk/index consistency invariant: in particular the `DirSync` hypothesis of
`create_on_existing_fails` and the `ConfigSync` hypothesis of
`get_config_requires_membership` hold in every reachable state. -/
theorem consistency_invariant (ctx : ExperimentContext) (dirs : List String)
    (ops : List Op) :
    Consistent (runOps ctx { index_file := none, dirs := dirs, configs := [] } ops) := by
  refine consistent_runOps ops _ ⟨?_, ?_, ?_⟩
  · intro p hp
    exact absurd hp (by simp [load_index])
  · intro p hp
    exact absurd hp (by simp)
  · simp [dictKeys]
